import Mathlib

/-!
Verification of the normalization and deduplication pipeline of the
`algo-option-lstm-poc` repository (source: `scripts/fetch_news.py` and
`scripts/fetch_prices.py`).

The two scripts are shallowly embedded here:

* Untyped provider payloads (Python/JSON values) are modelled by `PyVal`.
  Python numbers are modelled as rationals; `dict`s as association lists in
  insertion order (Python dicts preserve insertion order, and `d[k] = v`
  replaces in place when `k` is present, else appends).
* Places where the Python code can raise are modelled with `Except PyErr`:
  slicing a non-sequence (`articles[:20]` in `fetch_news.py`) and item
  assignment on a non-dict (`data["code"] = code` in `fetch_prices.py`,
  which sits *outside* the per-symbol `try` block).
* The provider client (`yfinance`) is an opaque collaborator and is injected
  as a function `String → Except PyErr …`; an `.error` result models the
  call raising.  An instrumentation log (`fetchLog`) records each price
  fetch invocation so invocation counts can be stated.
* The output directory is modelled as an association list from symbol code
  to file content; `fetch_prices.py` reads it back in the dedup-reuse
  branch, so its initial content (files possibly left by earlier runs) is a
  parameter of the run.
-/

/-- A Python/JSON value as handled by the scripts: `None`, strings, numbers
(modelled as rationals), lists and string-keyed dicts. -/
inductive PyVal where
  | null : PyVal
  | str : String → PyVal
  | num : ℚ → PyVal
  | list : List PyVal → PyVal
  | dict : List (String × PyVal) → PyVal

/-- The exceptions relevant to the scripts: a `TypeError` raised by the
interpreter, or any exception raised inside the provider client. -/
inductive PyErr where
  | typeError : PyErr
  | providerError : PyErr
deriving DecidableEq

/-- Lookup in a Python dict modelled as an association list
(first binding wins; the scripts never create duplicate keys). -/
def alookup {α : Type} : List (String × α) → String → Option α
  | [], _ => none
  | (k', v) :: rest, k => if k' = k then some v else alookup rest k

/-- Python `d[k] = v` / writing a file into a directory: replace the binding
in place when the key is present, else append it at the end. -/
def upsert {α : Type} (k : String) (v : α) : List (String × α) → List (String × α)
  | [] => [(k, v)]
  | (k', v') :: rest => if k' = k then (k, v) :: rest else (k', v') :: upsert k v rest

/-- Python `d.get(k, dflt)`. -/
def getD (d : List (String × PyVal)) (k : String) (dflt : PyVal) : PyVal :=
  (alookup d k).getD dflt

/-! ## News normalizer (`fetch_news.py`, lines 40–59 of `main`) -/

/-- A normalized article, the dict built at lines 52–58 of `fetch_news.py`.
Field values are whatever Python value the fallback chain produced. -/
structure Article where
  title : PyVal
  publisher : PyVal
  link : PyVal
  publishedAt : PyVal
  thumbnail : PyVal
  relatedTickers : PyVal

/-- `article.get('content', article) if isinstance(article, dict) else article`
(line 50): unwrap one `content` nesting level. -/
def unwrapContent (article : PyVal) : PyVal :=
  match article with
  | .dict d => (alookup d "content").getD (.dict d)
  | v => v

/-- Field extraction for one article record (lines 53–58), with the source's
fallback chains; `content` is the dict the record unwrapped to.
* `publisher`: `provider.displayName` when `provider` is a dict, else flat
  `publisher`.
* `link`: `canonicalUrl.url` when `canonicalUrl` is a dict, else flat `link`
  then `url`.
* `publishedAt`: `pubDate` else `providerPublishTime`.
* `thumbnail`: `thumbnail.originalUrl` when `thumbnail` is a dict, else `""`.
* `relatedTickers`: guarded by `isinstance(content.get("finance", {}), dict)`
  — when `finance` is present but not a dict the whole expression is `[]`,
  even if a direct `relatedTickers` field exists. -/
def mkArticle (d : List (String × PyVal)) : Article where
  title := getD d "title" (.str "")
  publisher :=
    match alookup d "provider" with
    | some (.dict p) => getD p "displayName" (.str "")
    | _ => getD d "publisher" (.str "")
  link :=
    match alookup d "canonicalUrl" with
    | some (.dict cu) => getD cu "url" (.str "")
    | _ => getD d "link" (getD d "url" (.str ""))
  publishedAt := getD d "pubDate" (getD d "providerPublishTime" (.str ""))
  thumbnail :=
    match alookup d "thumbnail" with
    | some (.dict th) => getD th "originalUrl" (.str "")
    | _ => .str ""
  relatedTickers :=
    match alookup d "finance" with
    | some (.dict f) => getD d "relatedTickers" (getD f "relatedTickers" (.list []))
    | some _ => .list []
    | none => getD d "relatedTickers" (.list [])

/-- Process one entry of the article sequence (lines 50–58): unwrap
`content`; when the result is a dict emit a normalized article, otherwise
skip the entry. -/
def normalizeEntry (article : PyVal) : Option Article :=
  match unwrapContent article with
  | .dict d => some (mkArticle d)
  | _ => none

/-- Python `articles[:20]` (line 51): a list is truncated, a string is
sliced to (then iterated as) its first 20 one-character strings, and any
other value raises `TypeError`. -/
def sliceTake20 : PyVal → Except PyErr (List PyVal)
  | .list xs => .ok (xs.take 20)
  | .str s => .ok ((s.data.take 20).map fun ch => .str (String.mk [ch]))
  | _ => .error .typeError

/-- The news normalization step (lines 41–58): shape resolution
(`dict`-with-`news` key → its `news` value, bare list → itself, anything
else → empty), truncation to 20 entries, then per-entry normalization.
The only failure point is slicing a non-sequence `news` value. -/
def normalizeNews (raw : PyVal) : Except PyErr (List Article) :=
  match raw with
  | .dict d =>
    match alookup d "news" with
    | some v =>
      match sliceTake20 v with
      | .error e => .error e
      | .ok entries => .ok (entries.filterMap normalizeEntry)
    | none => .ok []
  | .list xs => .ok ((xs.take 20).filterMap normalizeEntry)
  | _ => .ok []

/-! ## Price normalizer (`fetch_prices.py`, lines 63–72 of `main`) -/

/-- A calendar date, the index of one row of the provider's price history. -/
structure Date where
  year : Nat
  month : Nat
  day : Nat

/-- One row of the raw price series (`hist.iterrows()`); numeric cells are
modelled as rationals. -/
structure PriceRow where
  date : Date
  Open : ℚ
  High : ℚ
  Low : ℚ
  Close : ℚ
  Volume : ℚ

/-- The decimal digit character for `n % 10`. -/
def digitChar (n : Nat) : Char := Char.ofNat (48 + n % 10)

/-- Zero-padded two-digit decimal rendering, as `strftime` uses for `%m`/`%d`
(months and days are always below 100). -/
def pad2 (n : Nat) : String := String.mk [digitChar (n / 10), digitChar n]

/-- Zero-padded four-digit decimal rendering, as `strftime` uses for `%Y`
on the years occurring in a one-year price history. -/
def pad4 (n : Nat) : String :=
  String.mk [digitChar (n / 1000), digitChar (n / 100), digitChar (n / 10), digitChar n]

/-- `date.strftime("%Y-%m-%d")` (line 66). -/
def fmtDate (d : Date) : String := pad4 d.year ++ "-" ++ pad2 d.month ++ "-" ++ pad2 d.day

/-- Round a rational to the nearest integer, ties to even — CPython's
`round`. -/
def roundHalfEven (q : ℚ) : ℤ :=
  if Int.fract q < 1/2 then ⌊q⌋
  else if 1/2 < Int.fract q then ⌊q⌋ + 1
  else if Even ⌊q⌋ then ⌊q⌋ else ⌊q⌋ + 1

/-- Python `round(x, 3)` (lines 67–70), on numbers modelled as rationals. -/
def round3 (q : ℚ) : ℚ := (roundHalfEven (q * 1000) : ℚ) / 1000

/-- Python `int(x)` (line 71): truncation toward zero. -/
def truncInt (q : ℚ) : ℤ := if 0 ≤ q then ⌊q⌋ else ⌈q⌉

/-- A normalized price bar, the dict built at lines 65–72. -/
structure PriceBar where
  date : String
  Open : ℚ
  High : ℚ
  Low : ℚ
  Close : ℚ
  Volume : ℤ

/-- Build one `PriceBar` from one raw row (lines 65–72). -/
def mkBar (r : PriceRow) : PriceBar where
  date := fmtDate r.date
  Open := round3 r.Open
  High := round3 r.High
  Low := round3 r.Low
  Close := round3 r.Close
  Volume := truncInt r.Volume

/-- The price normalization loop (lines 63–72): one bar per row, in the
series' native order, no filtering. -/
def normalizePrices (rows : List PriceRow) : List PriceBar := rows.map mkBar

/-! ## Price pipeline orchestrator (`fetch_prices.py`, lines 30–99 of `main`) -/

/-- JSON encoding of one price bar as written to disk. -/
def priceBarVal (b : PriceBar) : PyVal :=
  .dict [("date", .str b.date), ("open", .num b.Open), ("high", .num b.High),
    ("low", .num b.Low), ("close", .num b.Close), ("volume", .num (b.Volume : ℚ))]

/-- JSON document written for one freshly fetched symbol (lines 76–82). -/
def priceArtifactVal (ticker code : String) (bars : List PriceBar) (now : String) : PyVal :=
  .dict [("ticker", .str ticker), ("code", .str code), ("days", .num (bars.length : ℚ)),
    ("prices", .list (bars.map priceBarVal)), ("fetchedAt", .str now)]

/-- Index entry for one symbol (lines 49 and 84). -/
def idxEntryVal (ticker : String) (days : PyVal) : PyVal :=
  .dict [("ticker", .str ticker), ("days", days)]

/-- Mutable state of the price run: the dedup cache `seen_tickers`, the
output directory (`files`, keyed by symbol code; file writes are modelled
by `upsert`), the accumulating `price_index`, the two counters, and an
instrumentation log of the tickers for which the provider's price fetch was
invoked. -/
structure PState where
  seen : List (String × String)
  files : List (String × PyVal)
  index : List (String × PyVal)
  success : Nat
  errors : Nat
  fetchLog : List String

/-- One iteration of the loop at lines 36–90 for the pair `(code, ticker)`.
* Cache hit (lines 37–52, *outside* the `try`): when the source file exists
  it is cloned with `data["code"] = code` — a `TypeError` that propagates
  out of the run when the file does not hold a dict — then written under
  the current code and indexed with `data.get("days", 0)`.
* Cache miss: the ticker is registered in `seen_tickers` (line 53) and the
  fetch attempted (logged); a provider error is caught by the `except` at
  line 88, an empty history is skipped (lines 59–61), and otherwise the
  normalized artifact is written and indexed. -/
def priceStep (fetch : String → Except PyErr (List PriceRow)) (now : String)
    (s : PState) (p : String × String) : Except PyErr PState :=
  match alookup s.seen p.2 with
  | some srcCode =>
    match alookup s.files srcCode with
    | none => .ok s
    | some (.dict d) =>
      let d' := upsert "code" (.str p.1) d
      .ok { s with
        files := upsert p.1 (.dict d') s.files,
        index := upsert p.1 (idxEntryVal p.2 (getD d' "days" (.num 0))) s.index,
        success := s.success + 1 }
    | some _ => .error .typeError
  | none =>
    let s1 := { s with seen := (p.2, p.1) :: s.seen, fetchLog := s.fetchLog ++ [p.2] }
    match fetch p.2 with
    | .error _ => .ok { s1 with errors := s1.errors + 1 }
    | .ok [] => .ok s1
    | .ok (r :: rs) =>
      let bars := normalizePrices (r :: rs)
      .ok { s1 with
        files := upsert p.1 (priceArtifactVal p.2 p.1 bars now) s1.files,
        index := upsert p.1 (idxEntryVal p.2 (.num (bars.length : ℚ))) s1.index,
        success := s1.success + 1 }

/-- Run the loop over the remaining `(code, ticker)` pairs; an uncaught
exception in the dedup-reuse branch aborts the whole run. -/
def goPrice (fetch : String → Except PyErr (List PriceRow)) (now : String)
    (s : PState) : List (String × String) → Except PyErr PState
  | [] => .ok s
  | p :: rest =>
    match priceStep fetch now s p with
    | .error e => .error e
    | .ok s' => goPrice fetch now s' rest

/-- A whole price run over the (sorted) symbol-to-ticker pairs, starting
from output directory content `fs0` (files possibly left by earlier runs);
the in-memory cache, index and counters start empty. -/
def runPricesFrom (fs0 : List (String × PyVal)) (pairs : List (String × String))
    (fetch : String → Except PyErr (List PriceRow)) (now : String) : Except PyErr PState :=
  goPrice fetch now ⟨[], fs0, [], 0, 0, []⟩ pairs

/-- A price run starting from an empty output directory. -/
def runPrices (pairs : List (String × String))
    (fetch : String → Except PyErr (List PriceRow)) (now : String) : Except PyErr PState :=
  runPricesFrom [] pairs fetch now

/-! ## News pipeline orchestrator (`fetch_news.py`, lines 25–73 of `main`) -/

/-- JSON document written for one symbol with news (line 55). -/
structure NewsArtifact where
  ticker : String
  code : String
  articles : List Article
  fetchedAt : String

/-- Mutable state of the news run: written files, `news_index`, counters.
The news pipeline has no dedup cache and never reads files back. -/
structure NState where
  files : List (String × NewsArtifact)
  index : List (String × PyVal)
  success : Nat
  errors : Nat

/-- Index entry for one symbol with news (line 57). -/
def newsIdxEntryVal (ticker : String) (count : Nat) : PyVal :=
  .dict [("ticker", .str ticker), ("count", .num (count : ℚ))]

/-- One iteration of the loop at lines 34–73 for the pair `(code, ticker)`:
everything — fetch, normalization, write — happens inside the `try`, so any
failure is caught at line 71 and counted; an empty normalized list is
skipped without touching files, index or counters. -/
def newsStep (fetchN : String → Except PyErr PyVal) (now : String)
    (s : NState) (p : String × String) : NState :=
  match fetchN p.2 with
  | .error _ => { s with errors := s.errors + 1 }
  | .ok raw =>
    match normalizeNews raw with
    | .error _ => { s with errors := s.errors + 1 }
    | .ok [] => s
    | .ok (a :: rest) =>
      { s with
        files := upsert p.1 ⟨p.2, p.1, a :: rest, now⟩ s.files,
        index := upsert p.1 (newsIdxEntryVal p.2 (a :: rest).length) s.index,
        success := s.success + 1 }

/-- Run the news loop over the remaining pairs; every per-symbol failure is
caught, so the run is total. -/
def goNews (fetchN : String → Except PyErr PyVal) (now : String)
    (s : NState) : List (String × String) → NState
  | [] => s
  | p :: rest => goNews fetchN now (newsStep fetchN now s p) rest

/-- A whole news run over the (sorted) symbol-to-ticker pairs. -/
def runNews (pairs : List (String × String))
    (fetchN : String → Except PyErr PyVal) (now : String) : NState :=
  goNews fetchN now ⟨[], [], 0, 0⟩ pairs

/-! ## Basic lemmas about the association-list operations -/

/-- Number of occurrences of a ticker in the fetch log. -/
def countS (l : List String) (t : String) : Nat :=
  match l with
  | [] => 0
  | x :: rest => (if x = t then 1 else 0) + countS rest t

/-- The symbol codes of a pair list. -/
def codesOf (l : List (String × String)) : List String := l.map Prod.fst

/-- The ticker identifiers of a pair list. -/
def tickersOf (l : List (String × String)) : List String := l.map Prod.snd

theorem alookup_upsert_self {α : Type} (k : String) (v : α) (l : List (String × α)) :
    alookup (upsert k v l) k = some v := by
  induction l with
  | nil => simp [upsert, alookup]
  | cons hd tl ih =>
    obtain ⟨k', v'⟩ := hd
    by_cases h : k' = k
    · simp [upsert, h, alookup]
    · simp [upsert, h, alookup, ih]

theorem alookup_upsert_ne {α : Type} {k c : String} (v : α) (l : List (String × α))
    (h : c ≠ k) : alookup (upsert k v l) c = alookup l c := by
  have hkc : ¬k = c := fun hh => h hh.symm
  induction l with
  | nil => simp [upsert, alookup, hkc]
  | cons hd tl ih =>
    obtain ⟨k', v'⟩ := hd
    by_cases hk : k' = k
    · subst hk
      simp [upsert, alookup, hkc]
    · simp [upsert, hk, alookup, ih]

theorem countS_append (l₁ l₂ : List String) (t : String) :
    countS (l₁ ++ l₂) t = countS l₁ t + countS l₂ t := by
  induction l₁ with
  | nil => simp [countS]
  | cons hd tl ih => simp [countS, ih]; omega

theorem codesOf_append (l₁ l₂ : List (String × String)) :
    codesOf (l₁ ++ l₂) = codesOf l₁ ++ codesOf l₂ := by
  simp [codesOf]

theorem tickersOf_append (l₁ l₂ : List (String × String)) :
    tickersOf (l₁ ++ l₂) = tickersOf l₁ ++ tickersOf l₂ := by
  simp [tickersOf]

/-! ## Decomposition lemmas for the two run loops -/

theorem goPrice_cons_ok {fetch : String → Except PyErr (List PriceRow)} {now : String}
    {s s' : PState} {p : String × String} {rest : List (String × String)}
    (h : goPrice fetch now s (p :: rest) = .ok s') :
    ∃ sm, priceStep fetch now s p = .ok sm ∧ goPrice fetch now sm rest = .ok s' := by
  unfold goPrice at h
  cases hstep : priceStep fetch now s p with
  | error e => rw [hstep] at h; exact absurd h (by simp)
  | ok sm => rw [hstep] at h; exact ⟨sm, rfl, h⟩

theorem goPrice_append_ok {fetch : String → Except PyErr (List PriceRow)} {now : String}
    (s s' : PState) (l₁ l₂ : List (String × String)) :
    goPrice fetch now s (l₁ ++ l₂) = .ok s' ↔
      ∃ sm, goPrice fetch now s l₁ = .ok sm ∧ goPrice fetch now sm l₂ = .ok s' := by
  induction l₁ generalizing s with
  | nil =>
    constructor
    · intro h; exact ⟨s, rfl, h⟩
    · rintro ⟨sm, hm, h⟩
      cases hm
      exact h
  | cons p tl ih =>
    constructor
    · intro h
      obtain ⟨sm, hstep, hrest⟩ := goPrice_cons_ok h
      obtain ⟨sm2, h1, h2⟩ := (ih sm).mp hrest
      refine ⟨sm2, ?_, h2⟩
      show goPrice fetch now s (p :: tl) = .ok sm2
      unfold goPrice
      rw [hstep]
      exact h1
    · rintro ⟨sm2, h1, h2⟩
      obtain ⟨sm, hstep, hrest⟩ := goPrice_cons_ok h1
      have hh := (ih sm).mpr ⟨sm2, hrest, h2⟩
      show goPrice fetch now s (p :: (tl ++ l₂)) = .ok s'
      unfold goPrice
      rw [hstep]
      exact hh

theorem goNews_append (fetchN : String → Except PyErr PyVal) (now : String)
    (s : NState) (l₁ l₂ : List (String × String)) :
    goNews fetchN now s (l₁ ++ l₂) = goNews fetchN now (goNews fetchN now s l₁) l₂ := by
  induction l₁ generalizing s with
  | nil => simp [goNews]
  | cons p tl ih =>
    simp only [List.cons_append, goNews]
    exact ih (newsStep fetchN now s p)

/-- A price-loop iteration writes files and index entries only under its own
symbol code. -/
theorem priceStep_writes_own {fetch : String → Except PyErr (List PriceRow)} {now : String}
    {s s' : PState} {p : String × String} (h : priceStep fetch now s p = .ok s') (c : String)
    (hc : c ≠ p.1) :
    alookup s'.files c = alookup s.files c ∧ alookup s'.index c = alookup s.index c := by
  unfold priceStep at h
  split at h
  · split at h
    · cases h
      exact ⟨rfl, rfl⟩
    · cases h
      exact ⟨alookup_upsert_ne _ _ hc, alookup_upsert_ne _ _ hc⟩
    · simp at h
  · split at h
    · cases h
      exact ⟨rfl, rfl⟩
    · cases h
      exact ⟨rfl, rfl⟩
    · cases h
      exact ⟨alookup_upsert_ne _ _ hc, alookup_upsert_ne _ _ hc⟩

/-- Codes not mentioned in the remaining pair list keep their file and index
entries across the rest of a price run. -/
theorem goPrice_preserves_fresh {fetch : String → Except PyErr (List PriceRow)} {now : String}
    {s s' : PState} {l : List (String × String)} (h : goPrice fetch now s l = .ok s')
    (c : String) (hc : c ∉ codesOf l) :
    alookup s'.files c = alookup s.files c ∧ alookup s'.index c = alookup s.index c := by
  induction l generalizing s with
  | nil => cases h; exact ⟨rfl, rfl⟩
  | cons p tl ih =>
    obtain ⟨sm, hstep, hrest⟩ := goPrice_cons_ok h
    have hc1 : c ≠ p.1 := fun he => hc (by simp [codesOf, he])
    have hctl : c ∉ codesOf tl := fun he => hc (by simp [codesOf] at he ⊢; right; exact he)
    obtain ⟨hf, hi⟩ := priceStep_writes_own hstep c hc1
    obtain ⟨hf', hi'⟩ := ih hrest hctl
    exact ⟨by rw [hf', hf], by rw [hi', hi]⟩

/-! ## Run invariant for the price pipeline (arbitrary initial directory) -/

/-- Invariant of the price run after the pairs in `processed` have been
handled, for a run started on directory content `fs0`:
* `seen_mem`/`seen_dom`: the dedup cache holds exactly the processed
  tickers, each mapped to a code it was processed under;
* `log_count`: the provider's price fetch has been invoked exactly once per
  processed ticker and never otherwise;
* `canon`: every processed code whose ticker fetches a non-empty series
  carries the canonical artifact for that ticker under its own code;
* `fresh`: unprocessed codes still hold their initial file (if any) and are
  absent from the index. -/
structure InvA (fetch : String → Except PyErr (List PriceRow)) (now : String)
    (fs0 : List (String × PyVal)) (processed : List (String × String)) (s : PState) : Prop where
  seen_mem : ∀ t c, alookup s.seen t = some c → (c, t) ∈ processed
  seen_dom : ∀ t, (alookup s.seen t).isSome ↔ t ∈ tickersOf processed
  log_count : ∀ t, countS s.fetchLog t = if t ∈ tickersOf processed then 1 else 0
  canon : ∀ c t r rs, (c, t) ∈ processed → fetch t = .ok (r :: rs) →
    alookup s.files c = some (priceArtifactVal t c (normalizePrices (r :: rs)) now)
  fresh : ∀ c, c ∉ codesOf processed →
    alookup s.files c = alookup fs0 c ∧ alookup s.index c = none

/-- Replacing the `code` field of a canonical price artifact yields the
canonical artifact for the new code. -/
theorem upsert_code_artifact (t c0 c : String) (bars : List PriceBar) (now : String) :
    PyVal.dict (upsert "code" (.str c)
        [("ticker", .str t), ("code", .str c0), ("days", .num (bars.length : ℚ)),
         ("prices", .list (bars.map priceBarVal)), ("fetchedAt", .str now)]) =
      priceArtifactVal t c bars now := rfl

theorem InvA_init (fetch : String → Except PyErr (List PriceRow)) (now : String)
    (fs0 : List (String × PyVal)) : InvA fetch now fs0 [] ⟨[], fs0, [], 0, 0, []⟩ where
  seen_mem := fun t c h => by simp [alookup] at h
  seen_dom := fun t => by simp [alookup, tickersOf]
  log_count := fun t => by simp [countS, tickersOf]
  canon := fun c t r rs h => by simp at h
  fresh := fun c _ => ⟨rfl, rfl⟩

theorem priceStep_invA {fetch : String → Except PyErr (List PriceRow)} {now : String}
    {fs0 : List (String × PyVal)} {processed : List (String × String)} {s s' : PState}
    {p : String × String} (inv : InvA fetch now fs0 processed s)
    (hfc : p.1 ∉ codesOf processed) (h : priceStep fetch now s p = .ok s') :
    InvA fetch now fs0 (processed ++ [p]) s' := by
  obtain ⟨code, ticker⟩ := p
  simp only at hfc
  unfold priceStep at h
  cases hseen : alookup s.seen ticker with
  | some srcCode =>
    simp only [hseen] at h
    have hsrc_mem : (srcCode, ticker) ∈ processed := inv.seen_mem ticker srcCode hseen
    have htick : ticker ∈ tickersOf processed := by
      have := (inv.seen_dom ticker).mp (by simp [hseen])
      exact this
    cases hfile : alookup s.files srcCode with
    | none =>
      simp only [hfile] at h
      cases h
      refine ⟨?_, ?_, ?_, ?_, ?_⟩
      · intro t c hl
        exact List.mem_append_left _ (inv.seen_mem t c hl)
      · intro t
        rw [inv.seen_dom t, tickersOf_append]
        constructor
        · intro hm; exact List.mem_append_left _ hm
        · intro hm
          rcases List.mem_append.mp hm with hm | hm
          · exact hm
          · simp [tickersOf] at hm
            subst hm
            exact htick
      · intro t
        rw [inv.log_count t, tickersOf_append]
        by_cases ht : t ∈ tickersOf processed
        · simp [ht]
        · have : ¬ t ∈ tickersOf [(code, ticker)] := by
            simp [tickersOf]
            intro he
            exact absurd (he ▸ htick) ht
          simp [ht, this]
      · intro c t r rs hmem hf
        rcases List.mem_append.mp hmem with hmem | hmem
        · exact inv.canon c t r rs hmem hf
        · simp at hmem
          obtain ⟨hc, ht⟩ := hmem
          subst hc; subst ht
          have := inv.canon srcCode t r rs hsrc_mem hf
          rw [hfile] at this
          exact absurd this (by simp)
      · intro c hcn
        rw [codesOf_append] at hcn
        exact inv.fresh c (fun hm => hcn (List.mem_append_left _ hm))
    | some v =>
      cases v with
      | dict d =>
        simp only [hfile] at h
        cases h
        refine ⟨?_, ?_, ?_, ?_, ?_⟩
        · intro t c hl
          exact List.mem_append_left _ (inv.seen_mem t c hl)
        · intro t
          rw [inv.seen_dom t, tickersOf_append]
          constructor
          · intro hm; exact List.mem_append_left _ hm
          · intro hm
            rcases List.mem_append.mp hm with hm | hm
            · exact hm
            · simp [tickersOf] at hm
              subst hm
              exact htick
        · intro t
          rw [inv.log_count t, tickersOf_append]
          by_cases ht : t ∈ tickersOf processed
          · simp [ht]
          · have : ¬ t ∈ tickersOf [(code, ticker)] := by
              simp [tickersOf]
              intro he
              exact absurd (he ▸ htick) ht
            simp [ht, this]
        · intro c t r rs hmem hf
          rcases List.mem_append.mp hmem with hmem | hmem
          · have hcne : c ≠ code := fun he => hfc (he ▸ List.mem_map_of_mem Prod.fst hmem)
            rw [show (({ s with
                files := upsert code (.dict (upsert "code" (.str code) d)) s.files,
                index := upsert code (idxEntryVal ticker
                  (getD (upsert "code" (.str code) d) "days" (.num 0))) s.index,
                success := s.success + 1 } : PState).files) = upsert code
                (.dict (upsert "code" (.str code) d)) s.files from rfl]
            rw [alookup_upsert_ne _ _ hcne]
            exact inv.canon c t r rs hmem hf
          · simp at hmem
            obtain ⟨hc, ht⟩ := hmem
            subst hc; subst ht
            have hcanon := inv.canon srcCode t r rs hsrc_mem hf
            rw [hfile] at hcanon
            have hd : d = [("ticker", .str t), ("code", .str srcCode),
                ("days", .num ((normalizePrices (r :: rs)).length : ℚ)),
                ("prices", .list ((normalizePrices (r :: rs)).map priceBarVal)),
                ("fetchedAt", .str now)] := by
              injection hcanon with hcanon
              injection hcanon
            show alookup (upsert c (.dict (upsert "code" (.str c) d)) s.files) c = _
            rw [hd, alookup_upsert_self, upsert_code_artifact]
        · intro c hcn
          rw [codesOf_append] at hcn
          have hcne : c ≠ code := by
            intro he
            exact hcn (List.mem_append_right _ (by simp [codesOf, he]))
          have hold := inv.fresh c (fun hm => hcn (List.mem_append_left _ hm))
          refine ⟨?_, ?_⟩
          · show alookup (upsert code _ s.files) c = _
            rw [alookup_upsert_ne _ _ hcne]
            exact hold.1
          · show alookup (upsert code _ s.index) c = none
            rw [alookup_upsert_ne _ _ hcne]
            exact hold.2
      | null => simp [hfile] at h
      | str _ => simp [hfile] at h
      | num _ => simp [hfile] at h
      | list _ => simp [hfile] at h
  | none =>
    simp only [hseen] at h
    have htick : ticker ∉ tickersOf processed := by
      intro hm
      have := (inv.seen_dom ticker).mpr hm
      rw [hseen] at this
      simp at this
    have hseen' : ∀ t c, alookup ((ticker, code) :: s.seen) t = some c →
        (c, t) ∈ processed ++ [(code, ticker)] := by
      intro t c hl
      simp only [alookup] at hl
      by_cases ht : ticker = t
      · rw [if_pos ht] at hl
        injection hl with hl
        subst hl; subst ht
        exact List.mem_append_right _ (by simp)
      · rw [if_neg ht] at hl
        exact List.mem_append_left _ (inv.seen_mem t c hl)
    have hdom' : ∀ t, (alookup ((ticker, code) :: s.seen) t).isSome ↔
        t ∈ tickersOf (processed ++ [(code, ticker)]) := by
      intro t
      rw [tickersOf_append]
      simp only [alookup]
      by_cases ht : ticker = t
      · subst ht
        simp [tickersOf]
      · rw [if_neg ht]
        rw [inv.seen_dom t]
        constructor
        · intro hm; exact List.mem_append_left _ hm
        · intro hm
          rcases List.mem_append.mp hm with hm | hm
          · exact hm
          · simp [tickersOf] at hm
            exact absurd hm.symm ht
    have hlog' : ∀ t, countS (s.fetchLog ++ [ticker]) t =
        if t ∈ tickersOf (processed ++ [(code, ticker)]) then 1 else 0 := by
      intro t
      rw [countS_append, inv.log_count t, tickersOf_append]
      by_cases ht : ticker = t
      · subst ht
        rw [if_neg htick]
        have h2 : countS [ticker] ticker = 1 := by simp [countS]
        rw [h2]
        have hmem : ticker ∈ tickersOf processed ++ tickersOf [(code, ticker)] :=
          List.mem_append_right _ (by simp [tickersOf])
        rw [if_pos hmem]
      · have h1 : countS [ticker] t = 0 := by simp [countS, ht]
        rw [h1]
        by_cases hm : t ∈ tickersOf processed
        · simp [hm]
        · have : ¬ t ∈ tickersOf [(code, ticker)] := by
            simp [tickersOf]
            exact fun he => ht he.symm
          simp [hm, this]
    cases hf : fetch ticker with
    | error e =>
      simp only [hf] at h
      cases h
      refine ⟨hseen', hdom', hlog', ?_, ?_⟩
      · intro c t r rs hmem hfo
        rcases List.mem_append.mp hmem with hmem | hmem
        · exact inv.canon c t r rs hmem hfo
        · simp at hmem
          obtain ⟨hc, ht⟩ := hmem
          subst hc; subst ht
          rw [hf] at hfo
          exact absurd hfo (by simp)
      · intro c hcn
        rw [codesOf_append] at hcn
        exact inv.fresh c (fun hm => hcn (List.mem_append_left _ hm))
    | ok rows =>
      cases rows with
      | nil =>
        simp only [hf] at h
        cases h
        refine ⟨hseen', hdom', hlog', ?_, ?_⟩
        · intro c t r rs hmem hfo
          rcases List.mem_append.mp hmem with hmem | hmem
          · exact inv.canon c t r rs hmem hfo
          · simp at hmem
            obtain ⟨hc, ht⟩ := hmem
            subst hc; subst ht
            rw [hf] at hfo
            exact absurd hfo (by simp)
        · intro c hcn
          rw [codesOf_append] at hcn
          exact inv.fresh c (fun hm => hcn (List.mem_append_left _ hm))
      | cons r0 rs0 =>
        simp only [hf] at h
        cases h
        refine ⟨hseen', hdom', hlog', ?_, ?_⟩
        · intro c t r rs hmem hfo
          rcases List.mem_append.mp hmem with hmem | hmem
          · have hcne : c ≠ code := fun he => hfc (he ▸ List.mem_map_of_mem Prod.fst hmem)
            show alookup (upsert code _ s.files) c = _
            rw [alookup_upsert_ne _ _ hcne]
            exact inv.canon c t r rs hmem hfo
          · simp at hmem
            obtain ⟨hc, ht⟩ := hmem
            subst hc; subst ht
            rw [hf] at hfo
            injection hfo with hfo
            show alookup (upsert c (priceArtifactVal t c (normalizePrices (r0 :: rs0)) now)
              s.files) c = _
            rw [alookup_upsert_self, hfo]
        · intro c hcn
          rw [codesOf_append] at hcn
          have hcne : c ≠ code := by
            intro he
            exact hcn (List.mem_append_right _ (by simp [codesOf, he]))
          have hold := inv.fresh c (fun hm => hcn (List.mem_append_left _ hm))
          refine ⟨?_, ?_⟩
          · show alookup (upsert code _ s.files) c = _
            rw [alookup_upsert_ne _ _ hcne]
            exact hold.1
          · show alookup (upsert code _ s.index) c = none
            rw [alookup_upsert_ne _ _ hcne]
            exact hold.2

theorem goPrice_invA {fetch : String → Except PyErr (List PriceRow)} {now : String}
    {fs0 : List (String × PyVal)} :
    ∀ {rest : List (String × String)} {processed : List (String × String)} {s s' : PState},
    InvA fetch now fs0 processed s → (codesOf (processed ++ rest)).Nodup →
    goPrice fetch now s rest = .ok s' → InvA fetch now fs0 (processed ++ rest) s' := by
  intro rest
  induction rest with
  | nil =>
    intro processed s s' inv _ h
    cases h
    simpa using inv
  | cons p tl ih =>
    intro processed s s' inv hnd h
    obtain ⟨sm, hstep, hrest⟩ := goPrice_cons_ok h
    have hfc : p.1 ∉ codesOf processed := by
      intro hm
      rw [codesOf_append] at hnd
      have hdisj := (List.nodup_append.mp hnd).2.2
      exact hdisj hm (by simp [codesOf])
    have inv' := priceStep_invA inv hfc hstep
    have hnd' : (codesOf ((processed ++ [p]) ++ tl)).Nodup := by
      rw [show (processed ++ [p]) ++ tl = processed ++ (p :: tl) by simp]
      exact hnd
    have := ih inv' hnd' hrest
    rw [show (processed ++ [p]) ++ tl = processed ++ (p :: tl) by simp] at this
    exact this

/-- The run invariant holds at the end of every completed price run over a
configuration with pairwise-distinct symbol codes. -/
theorem runPricesFrom_invA {fs0 : List (String × PyVal)} {pairs : List (String × String)}
    {fetch : String → Except PyErr (List PriceRow)} {now : String} {s : PState}
    (hnd : (codesOf pairs).Nodup) (h : runPricesFrom fs0 pairs fetch now = .ok s) :
    InvA fetch now fs0 pairs s := by
  have := goPrice_invA (InvA_init fetch now fs0) (by simpa using hnd) h
  simpa using this

/-! ## Clean runs: totality and error accounting for the price pipeline -/

/-- Whether a provider call result is an exception. -/
def isErrE {α : Type} : Except PyErr α → Bool
  | .error _ => true
  | .ok _ => false

/-- The attempts for a ticker fail to produce data: the price fetch either
raises or returns an empty history. -/
def fetchBad (fetch : String → Except PyErr (List PriceRow)) (t : String) : Prop :=
  (∃ e, fetch t = .error e) ∨ fetch t = .ok []

/-- The error count a price run accrues on the remaining pairs, given the
set of already-seen tickers: one per first-encountered ticker whose fetch
raises. -/
def expErrPrice (fetch : String → Except PyErr (List PriceRow)) :
    List (String × String) → List String → Nat
  | [], _ => 0
  | p :: rest, seenT =>
    if p.2 ∈ seenT then expErrPrice fetch rest seenT
    else (if isErrE (fetch p.2) then 1 else 0) + expErrPrice fetch rest (p.2 :: seenT)

theorem expErrPrice_congr (fetch : String → Except PyErr (List PriceRow)) :
    ∀ (rest : List (String × String)) (s₁ s₂ : List String),
    (∀ x, x ∈ s₁ ↔ x ∈ s₂) → expErrPrice fetch rest s₁ = expErrPrice fetch rest s₂ := by
  intro rest
  induction rest with
  | nil => intro s₁ s₂ _; rfl
  | cons p tl ih =>
    intro s₁ s₂ hiff
    unfold expErrPrice
    by_cases hm : p.2 ∈ s₁
    · rw [if_pos hm, if_pos ((hiff p.2).mp hm), ih s₁ s₂ hiff]
    · rw [if_neg hm, if_neg (fun hc => hm ((hiff p.2).mpr hc))]
      rw [ih (p.2 :: s₁) (p.2 :: s₂) (by intro x; simp [hiff x])]

theorem alookup_upsert_cases {α : Type} (k c : String) (v : α) (l : List (String × α))
    (w : α) (h : alookup (upsert k v l) c = some w) : w = v ∨ alookup l c = some w := by
  by_cases hc : c = k
  · subst hc
    rw [alookup_upsert_self] at h
    injection h with h
    exact Or.inl h.symm
  · rw [alookup_upsert_ne _ _ hc] at h
    exact Or.inr h

/-- Additional invariant of a price run started on an *empty* directory:
every file present was written by this run (hence holds a dict), and a code
whose ticker's fetch failed or came back empty has neither a file nor an
index entry. -/
structure InvB (fetch : String → Except PyErr (List PriceRow)) (now : String)
    (processed : List (String × String)) (s : PState) : Prop where
  base : InvA fetch now [] processed s
  all_dict : ∀ c v, alookup s.files c = some v → ∃ d, v = .dict d
  bad_none : ∀ c t, (c, t) ∈ processed → fetchBad fetch t →
    alookup s.files c = none ∧ alookup s.index c = none

theorem InvB_init (fetch : String → Except PyErr (List PriceRow)) (now : String) :
    InvB fetch now [] ⟨[], [], [], 0, 0, []⟩ where
  base := InvA_init fetch now []
  all_dict := fun c v h => by simp [alookup] at h
  bad_none := fun c t h => by simp at h

/-- On a clean run, every loop iteration completes (no uncaught reuse-branch
exception is possible), preserves the clean-run invariant, and adds one to
the error count exactly when it first-encounters a ticker whose fetch
raises. -/
theorem priceStep_clean {fetch : String → Except PyErr (List PriceRow)} {now : String}
    {processed : List (String × String)} {s : PState} {p : String × String}
    (inv : InvB fetch now processed s) (hfc : p.1 ∉ codesOf processed) :
    ∃ s', priceStep fetch now s p = .ok s' ∧ InvB fetch now (processed ++ [p]) s' ∧
      s'.errors = s.errors +
        (if (alookup s.seen p.2).isSome then 0 else if isErrE (fetch p.2) then 1 else 0) := by
  obtain ⟨code, ticker⟩ := p
  simp only at hfc ⊢
  cases hseen : alookup s.seen ticker with
  | some srcCode =>
    have hsm : (srcCode, ticker) ∈ processed := inv.base.seen_mem ticker srcCode hseen
    cases hfile : alookup s.files srcCode with
    | none =>
      have hstep : priceStep fetch now s (code, ticker) = .ok s := by
        unfold priceStep
        simp only [hseen, hfile]
      refine ⟨s, hstep, ⟨priceStep_invA inv.base hfc hstep, inv.all_dict, ?_⟩, by simp [hseen]⟩
      intro c t hmem hbad
      rcases List.mem_append.mp hmem with hmem | hmem
      · exact inv.bad_none c t hmem hbad
      · simp at hmem
        obtain ⟨hc, ht⟩ := hmem
        subst hc; subst ht
        have := inv.base.fresh c hfc
        simpa [alookup] using this
    | some v =>
      obtain ⟨d, rfl⟩ := inv.all_dict srcCode v hfile
      have hnotbad : ¬ fetchBad fetch ticker := by
        intro hbad
        have := (inv.bad_none srcCode ticker hsm hbad).1
        rw [hfile] at this
        exact absurd this (by simp)
      have hstep : priceStep fetch now s (code, ticker) = .ok { s with
          files := upsert code (.dict (upsert "code" (.str code) d)) s.files,
          index := upsert code (idxEntryVal ticker
            (getD (upsert "code" (.str code) d) "days" (.num 0))) s.index,
          success := s.success + 1 } := by
        unfold priceStep
        simp only [hseen, hfile]
      refine ⟨_, hstep, ⟨priceStep_invA inv.base hfc hstep, ?_, ?_⟩, by simp [hseen]⟩
      · intro c v h
        rcases alookup_upsert_cases _ _ _ _ _ h with h | h
        · exact ⟨_, h⟩
        · exact inv.all_dict c v h
      · intro c t hmem hbad
        rcases List.mem_append.mp hmem with hmem | hmem
        · have hcne : c ≠ code := fun he => hfc (he ▸ List.mem_map_of_mem Prod.fst hmem)
          have hold := inv.bad_none c t hmem hbad
          constructor
          · show alookup (upsert code _ s.files) c = none
            rw [alookup_upsert_ne _ _ hcne]
            exact hold.1
          · show alookup (upsert code _ s.index) c = none
            rw [alookup_upsert_ne _ _ hcne]
            exact hold.2
        · simp at hmem
          obtain ⟨hc, ht⟩ := hmem
          subst hc; subst ht
          exact absurd hbad hnotbad
  | none =>
    cases hf : fetch ticker with
    | error e =>
      have hstep : priceStep fetch now s (code, ticker) = .ok { s with
          seen := (ticker, code) :: s.seen, fetchLog := s.fetchLog ++ [ticker],
          errors := s.errors + 1 } := by
        unfold priceStep
        simp only [hseen, hf]
      refine ⟨_, hstep, ⟨priceStep_invA inv.base hfc hstep, inv.all_dict, ?_⟩,
        by simp [hseen, hf, isErrE]⟩
      intro c t hmem hbad
      rcases List.mem_append.mp hmem with hmem | hmem
      · exact inv.bad_none c t hmem hbad
      · simp at hmem
        obtain ⟨hc, ht⟩ := hmem
        subst hc; subst ht
        have := inv.base.fresh c hfc
        simpa [alookup] using this
    | ok rows =>
      cases rows with
      | nil =>
        have hstep : priceStep fetch now s (code, ticker) = .ok { s with
            seen := (ticker, code) :: s.seen, fetchLog := s.fetchLog ++ [ticker] } := by
          unfold priceStep
          simp only [hseen, hf]
        refine ⟨_, hstep, ⟨priceStep_invA inv.base hfc hstep, inv.all_dict, ?_⟩,
          by simp [hseen, hf, isErrE]⟩
        intro c t hmem hbad
        rcases List.mem_append.mp hmem with hmem | hmem
        · exact inv.bad_none c t hmem hbad
        · simp at hmem
          obtain ⟨hc, ht⟩ := hmem
          subst hc; subst ht
          have := inv.base.fresh c hfc
          simpa [alookup] using this
      | cons r0 rs0 =>
        have hstep : priceStep fetch now s (code, ticker) = .ok { s with
            seen := (ticker, code) :: s.seen, fetchLog := s.fetchLog ++ [ticker],
            files := upsert code
              (priceArtifactVal ticker code (normalizePrices (r0 :: rs0)) now) s.files,
            index := upsert code (idxEntryVal ticker
              (.num ((normalizePrices (r0 :: rs0)).length : ℚ))) s.index,
            success := s.success + 1 } := by
          unfold priceStep
          simp only [hseen, hf]
        have hnotbad : ¬ fetchBad fetch ticker := by
          rintro (⟨e, he⟩ | he) <;> rw [hf] at he <;> simp at he
        refine ⟨_, hstep, ⟨priceStep_invA inv.base hfc hstep, ?_, ?_⟩,
          by simp [hseen, hf, isErrE]⟩
        · intro c v h
          rcases alookup_upsert_cases _ _ _ _ _ h with h | h
          · subst h
            exact ⟨_, rfl⟩
          · exact inv.all_dict c v h
        · intro c t hmem hbad
          rcases List.mem_append.mp hmem with hmem | hmem
          · have hcne : c ≠ code := fun he => hfc (he ▸ List.mem_map_of_mem Prod.fst hmem)
            have hold := inv.bad_none c t hmem hbad
            constructor
            · show alookup (upsert code _ s.files) c = none
              rw [alookup_upsert_ne _ _ hcne]
              exact hold.1
            · show alookup (upsert code _ s.index) c = none
              rw [alookup_upsert_ne _ _ hcne]
              exact hold.2
          · simp at hmem
            obtain ⟨hc, ht⟩ := hmem
            subst hc; subst ht
            exact absurd hbad hnotbad

theorem goPrice_clean {fetch : String → Except PyErr (List PriceRow)} {now : String} :
    ∀ {rest processed : List (String × String)} {s : PState},
    InvB fetch now processed s → (codesOf (processed ++ rest)).Nodup →
    ∃ s', goPrice fetch now s rest = .ok s' ∧ InvB fetch now (processed ++ rest) s' ∧
      s'.errors = s.errors + expErrPrice fetch rest (tickersOf processed) := by
  intro rest
  induction rest with
  | nil =>
    intro processed s inv _
    exact ⟨s, rfl, by simpa using inv, by simp [expErrPrice]⟩
  | cons p tl ih =>
    intro processed s inv hnd
    have hfc : p.1 ∉ codesOf processed := by
      intro hm
      rw [codesOf_append] at hnd
      have hdisj := (List.nodup_append.mp hnd).2.2
      exact hdisj hm (by simp [codesOf])
    obtain ⟨sm, hstep, invm, herr⟩ := priceStep_clean inv hfc
    have hnd' : (codesOf ((processed ++ [p]) ++ tl)).Nodup := by
      rw [show (processed ++ [p]) ++ tl = processed ++ (p :: tl) by simp]
      exact hnd
    obtain ⟨s', hgo, inv', herr'⟩ := ih invm hnd'
    refine ⟨s', ?_, ?_, ?_⟩
    · show goPrice fetch now s (p :: tl) = .ok s'
      unfold goPrice
      rw [hstep]
      exact hgo
    · rw [show (processed ++ [p]) ++ tl = processed ++ (p :: tl) by simp] at inv'
      exact inv'
    · have hcons : ∀ seenT, expErrPrice fetch (p :: tl) seenT =
          if p.2 ∈ seenT then expErrPrice fetch tl seenT
          else (if isErrE (fetch p.2) then 1 else 0) + expErrPrice fetch tl (p.2 :: seenT) :=
        fun seenT => rfl
      rw [herr', herr, hcons]
      by_cases hm : p.2 ∈ tickersOf processed
      · have hsome : (alookup s.seen p.2).isSome := (inv.base.seen_dom p.2).mpr hm
        rw [if_pos hm]
        have hcg : expErrPrice fetch tl (tickersOf (processed ++ [p])) =
            expErrPrice fetch tl (tickersOf processed) := by
          apply expErrPrice_congr
          intro x
          rw [tickersOf_append]
          constructor
          · intro hx
            rcases List.mem_append.mp hx with hx | hx
            · exact hx
            · simp [tickersOf] at hx
              exact hx ▸ hm
          · intro hx
            exact List.mem_append_left _ hx
        rw [hcg]
        simp [hsome]
      · have hnone : ¬ (alookup s.seen p.2).isSome := fun hs =>
          hm ((inv.base.seen_dom p.2).mp hs)
        rw [if_neg hm]
        have hcg : expErrPrice fetch tl (tickersOf (processed ++ [p])) =
            expErrPrice fetch tl (p.2 :: tickersOf processed) := by
          apply expErrPrice_congr
          intro x
          rw [tickersOf_append]
          constructor
          · intro hx
            rcases List.mem_append.mp hx with hx | hx
            · exact List.mem_cons_of_mem _ hx
            · simp [tickersOf] at hx
              exact hx ▸ List.mem_cons_self _ _
          · intro hx
            rcases List.mem_cons.mp hx with hx | hx
            · exact List.mem_append_right _ (by simp [tickersOf, hx])
            · exact List.mem_append_left _ hx
        rw [hcg]
        simp only [hnone, if_false, Bool.false_eq_true]
        omega

/-- A price run from an empty directory always completes: the uncaught
exception in the dedup-reuse branch needs a non-dict source file, and every
file such a run writes is a dict.  Its final error count is one per
first-encountered ticker whose fetch raises. -/
theorem runPrices_clean {pairs : List (String × String)}
    {fetch : String → Except PyErr (List PriceRow)} {now : String}
    (hnd : (codesOf pairs).Nodup) :
    ∃ s, runPrices pairs fetch now = .ok s ∧ InvB fetch now pairs s ∧
      s.errors = expErrPrice fetch pairs [] := by
  obtain ⟨s, hgo, inv, herr⟩ := goPrice_clean (InvB_init fetch now) (by simpa using hnd)
  refine ⟨s, hgo, by simpa using inv, ?_⟩
  rw [herr]
  simp [tickersOf]

/-! ## News run lemmas -/

/-- Whether handling a ticker in the news pipeline fails: the fetch raises,
or normalization of its payload raises. -/
def newsFails (fetchN : String → Except PyErr PyVal) (t : String) : Bool :=
  match fetchN t with
  | .error _ => true
  | .ok raw => isErrE (normalizeNews raw)

/-- The news run is total and its error count is exactly the number of
pairs whose handling fails; every failure is absorbed at the symbol
boundary and the loop continues. -/
theorem goNews_errors (fetchN : String → Except PyErr PyVal) (now : String) :
    ∀ (l : List (String × String)) (s : NState),
    (goNews fetchN now s l).errors = s.errors + l.countP (fun p => newsFails fetchN p.2) := by
  intro l
  induction l with
  | nil => intro s; simp [goNews]
  | cons p tl ih =>
    intro s
    show (goNews fetchN now (newsStep fetchN now s p) tl).errors = _
    rw [ih]
    have hstep : (newsStep fetchN now s p).errors =
        s.errors + (if newsFails fetchN p.2 then 1 else 0) := by
      unfold newsStep newsFails
      cases hf : fetchN p.2 with
      | error e => simp [hf]
      | ok raw =>
        cases hn : normalizeNews raw with
        | error e => simp [hf, hn, isErrE]
        | ok arts =>
          cases arts with
          | nil => simp [hf, hn, isErrE]
          | cons a rest => simp [hf, hn, isErrE]
    rw [hstep, List.countP_cons]
    by_cases hb : newsFails fetchN p.2
    · simp [hb]
      omega
    · simp [hb]

/-- A news-loop iteration writes files and index entries only under its own
symbol code. -/
theorem newsStep_writes_own (fetchN : String → Except PyErr PyVal) (now : String)
    (s : NState) (p : String × String) (c : String) (hc : c ≠ p.1) :
    alookup (newsStep fetchN now s p).files c = alookup s.files c ∧
      alookup (newsStep fetchN now s p).index c = alookup s.index c := by
  unfold newsStep
  cases hf : fetchN p.2 with
  | error e => simp [hf]
  | ok raw =>
    cases hn : normalizeNews raw with
    | error e => simp [hf, hn]
    | ok arts =>
      cases arts with
      | nil => simp [hf, hn]
      | cons a rest =>
        simp only [hf, hn]
        exact ⟨alookup_upsert_ne _ _ hc, alookup_upsert_ne _ _ hc⟩

/-- Codes not mentioned in the remaining pair list keep their file and index
entries across the rest of a news run. -/
theorem goNews_preserves_fresh (fetchN : String → Except PyErr PyVal) (now : String) :
    ∀ (l : List (String × String)) (s : NState) (c : String), c ∉ codesOf l →
    alookup (goNews fetchN now s l).files c = alookup s.files c ∧
      alookup (goNews fetchN now s l).index c = alookup s.index c := by
  intro l
  induction l with
  | nil => intro s c _; exact ⟨rfl, rfl⟩
  | cons p tl ih =>
    intro s c hc
    have hc1 : c ≠ p.1 := fun he => hc (by simp [codesOf, he])
    have hctl : c ∉ codesOf tl := fun he => hc (by simp [codesOf] at he ⊢; right; exact he)
    obtain ⟨hf, hi⟩ := ih (newsStep fetchN now s p) c hctl
    obtain ⟨hf', hi'⟩ := newsStep_writes_own fetchN now s p c hc1
    constructor
    · show alookup (goNews fetchN now (newsStep fetchN now s p) tl).files c = _
      rw [hf, hf']
    · show alookup (goNews fetchN now (newsStep fetchN now s p) tl).index c = _
      rw [hi, hi']

/-! ## Claim theorems: news normalization (C4–C7) -/

/-- Helper: whenever normalization succeeds, at most 20 articles come out. -/
theorem normalizeNews_ok_length (raw : PyVal) (arts : List Article)
    (h : normalizeNews raw = .ok arts) : arts.length ≤ 20 := by
  cases raw with
  | dict d =>
    unfold normalizeNews at h
    cases hl : alookup d "news" with
    | none =>
      simp only [hl] at h
      injection h with h
      simp [← h]
    | some v =>
      simp only [hl] at h
      cases v with
      | list xs =>
        simp only [sliceTake20] at h
        injection h with h
        calc arts.length = ((xs.take 20).filterMap normalizeEntry).length := by rw [← h]
          _ ≤ (xs.take 20).length := List.length_filterMap_le _ _
          _ ≤ 20 := List.length_take_le _ _
      | str str0 =>
        simp only [sliceTake20] at h
        injection h with h
        calc arts.length
            = (((str0.data.take 20).map fun ch => PyVal.str (String.mk [ch])).filterMap
                normalizeEntry).length := by rw [← h]
          _ ≤ ((str0.data.take 20).map fun ch => PyVal.str (String.mk [ch])).length :=
              List.length_filterMap_le _ _
          _ = (str0.data.take 20).length := by rw [List.length_map]
          _ ≤ 20 := List.length_take_le _ _
      | null => simp [sliceTake20] at h
      | num q => simp [sliceTake20] at h
      | dict d2 => simp [sliceTake20] at h
  | list xs =>
    unfold normalizeNews at h
    injection h with h
    calc arts.length = ((xs.take 20).filterMap normalizeEntry).length := by rw [← h]
      _ ≤ (xs.take 20).length := List.length_filterMap_le _ _
      _ ≤ 20 := List.length_take_le _ _
  | null => unfold normalizeNews at h; injection h with h; simp [← h]
  | str str0 => unfold normalizeNews at h; injection h with h; simp [← h]
  | num q => unfold normalizeNews at h; injection h with h; simp [← h]

/-- Claim C4, counterexample: the news normalization step *can* raise — on
the payload `{"news": 5}` the slice `articles[:20]` at line 51 of
`fetch_news.py` raises `TypeError` (`5` is not subscriptable), so
normalization does not complete for every raw response value. -/
theorem c4_counterexample :
    normalizeNews (.dict [("news", .num 5)]) = .error .typeError := rfl

/-- The raw shapes under which slicing cannot raise: when the value is a
record containing `news`, that field must hold a sequence (or a string,
which Python happily slices); every other value is safe. -/
def newsShapeOk (raw : PyVal) : Prop :=
  match raw with
  | .dict d => ∀ v, alookup d "news" = some v →
      (∃ xs, v = .list xs) ∨ (∃ s0, v = .str s0)
  | _ => True

/-- Claim C4 (amended): the news normalization step never raises *provided
that, when the raw value is a record containing key `news`, the `news`
field holds a sequence (or text)*; for every bare sequence with arbitrary
entry shapes and for every non-record value it completes without failure,
every field-access ambiguity resolving to the default, and yields at most
20 articles.  (Unamended, the claim fails: see the counterexample, where a
record whose `news` field is a number makes the slice raise `TypeError`.) -/
theorem c4_never_raises_amended (raw : PyVal) (hok : newsShapeOk raw) :
    ∃ arts, normalizeNews raw = .ok arts ∧ arts.length ≤ 20 := by
  cases raw with
  | dict d =>
    cases hl : alookup d "news" with
    | none =>
      refine ⟨[], ?_, by simp⟩
      unfold normalizeNews
      simp [hl]
    | some v =>
      rcases hok v hl with ⟨xs, rfl⟩ | ⟨s0, rfl⟩
      · refine ⟨(xs.take 20).filterMap normalizeEntry, ?_, ?_⟩
        · unfold normalizeNews
          simp [hl, sliceTake20]
        · calc ((xs.take 20).filterMap normalizeEntry).length
              ≤ (xs.take 20).length := List.length_filterMap_le _ _
            _ ≤ 20 := List.length_take_le _ _
      · refine ⟨((s0.data.take 20).map fun ch => PyVal.str (String.mk [ch])).filterMap
          normalizeEntry, ?_, ?_⟩
        · unfold normalizeNews
          simp [hl, sliceTake20]
        · calc (((s0.data.take 20).map fun ch => PyVal.str (String.mk [ch])).filterMap
                normalizeEntry).length
              ≤ ((s0.data.take 20).map fun ch => PyVal.str (String.mk [ch])).length :=
                List.length_filterMap_le _ _
            _ = (s0.data.take 20).length := by rw [List.length_map]
            _ ≤ 20 := List.length_take_le _ _
  | list xs =>
    refine ⟨(xs.take 20).filterMap normalizeEntry, rfl, ?_⟩
    calc ((xs.take 20).filterMap normalizeEntry).length
        ≤ (xs.take 20).length := List.length_filterMap_le _ _
      _ ≤ 20 := List.length_take_le _ _
  | null => exact ⟨[], rfl, by simp⟩
  | str s0 => exact ⟨[], rfl, by simp⟩
  | num q => exact ⟨[], rfl, by simp⟩

/-- Witness for the amended C4 at a concrete record-with-`news` payload. -/
theorem c4_witness :
    ∃ arts, normalizeNews (.dict [("news", .list [.dict [("title", .str "X")]])]) = .ok arts ∧
      arts.length ≤ 20 := by
  apply c4_never_raises_amended
  intro v hv
  have hv' : some (PyVal.list [.dict [("title", .str "X")]]) = some v := by
    rw [← hv]
    rfl
  injection hv' with hv'
  exact Or.inl ⟨_, hv'.symm⟩

/-- Claim C5: shape resolution follows the priority order of lines 46–51 of
`fetch_news.py` — a record containing key `news` contributes that field as
the article sequence, a bare sequence is used directly, anything else
resolves to the empty sequence — and exactly the first 20 entries of the
resolved sequence are processed, in provider order, with no re-ranking;
every successful normalization yields at most 20 articles. -/
theorem c5_shape_resolution :
    (∀ d xs, alookup d "news" = some (.list xs) →
      normalizeNews (.dict d) = .ok ((xs.take 20).filterMap normalizeEntry)) ∧
    (∀ xs, normalizeNews (.list xs) = .ok ((xs.take 20).filterMap normalizeEntry)) ∧
    (∀ d, alookup d "news" = none → normalizeNews (.dict d) = .ok []) ∧
    (∀ s0, normalizeNews (.str s0) = .ok []) ∧
    (∀ q, normalizeNews (.num q) = .ok []) ∧
    (normalizeNews .null = .ok []) ∧
    (∀ raw arts, normalizeNews raw = .ok arts → arts.length ≤ 20) := by
  refine ⟨?_, ?_, ?_, ?_, ?_, ?_, normalizeNews_ok_length⟩
  · intro d xs hl
    unfold normalizeNews
    simp [hl, sliceTake20]
  · intro xs
    rfl
  · intro d hl
    unfold normalizeNews
    simp [hl]
  · intro s0
    rfl
  · intro q
    rfl
  · rfl

/-- Witness for C5 on concrete payloads of all three shapes, including the
spec's end-to-end example `{"news": [{"content": {"title": "X"}}]}`. -/
theorem c5_witness :
    normalizeNews (.dict [("news", .list [.dict [("content", .dict [("title", .str "X")])]])]) =
      .ok [⟨.str "X", .str "", .str "", .str "", .str "", .list []⟩] ∧
    normalizeNews (.list [.str "junk"]) = .ok [] ∧
    normalizeNews (.dict [("other", .num 1)]) = .ok [] ∧
    normalizeNews (.str "bare") = .ok [] := by
  have h := c5_shape_resolution
  refine ⟨?_, ?_, ?_, h.2.2.2.1 "bare"⟩
  · exact (h.1 [("news", .list [.dict [("content", .dict [("title", .str "X")])]])]
      [.dict [("content", .dict [("title", .str "X")])]] rfl).trans rfl
  · exact (h.2.1 [.str "junk"]).trans rfl
  · exact h.2.2.1 [("other", .num 1)] rfl

/-- Claim C6, counterexample: with a direct `relatedTickers` field present
*and* a non-record `finance` field, the guard
`isinstance(content.get("finance", {}), dict)` at line 58 of
`fetch_news.py` is false, so the normalizer emits the empty sequence
instead of the direct field — the claimed fallback order does not hold. -/
theorem c6_counterexample :
    alookup [("relatedTickers", PyVal.list [.str "A"]), ("finance", PyVal.str "x")]
        "relatedTickers" = some (.list [.str "A"]) ∧
    (mkArticle [("relatedTickers", PyVal.list [.str "A"]), ("finance", PyVal.str "x")]
        ).relatedTickers = .list [] := ⟨rfl, rfl⟩

/-- Claim C6 (amended): the normalized `relatedTickers` equals the record's
direct `relatedTickers` field when present — *provided `finance` is absent
or is itself a record*; when the direct field is absent and `finance` is a
record, it equals that sub-record's `relatedTickers` (empty when that too
is absent); when both are absent it is the empty sequence; and whenever
`finance` is present but *not* a record, the result is the empty sequence
regardless of the direct field. -/
theorem c6_related_tickers_amended (d : List (String × PyVal)) :
    (∀ v, alookup d "relatedTickers" = some v →
      (alookup d "finance" = none ∨ ∃ f, alookup d "finance" = some (.dict f)) →
      (mkArticle d).relatedTickers = v) ∧
    (∀ f v, alookup d "relatedTickers" = none → alookup d "finance" = some (.dict f) →
      alookup f "relatedTickers" = some v → (mkArticle d).relatedTickers = v) ∧
    (∀ f, alookup d "relatedTickers" = none → alookup d "finance" = some (.dict f) →
      alookup f "relatedTickers" = none → (mkArticle d).relatedTickers = .list []) ∧
    (alookup d "relatedTickers" = none → alookup d "finance" = none →
      (mkArticle d).relatedTickers = .list []) ∧
    (∀ w, alookup d "finance" = some w → (∀ f, w ≠ .dict f) →
      (mkArticle d).relatedTickers = .list []) := by
  refine ⟨?_, ?_, ?_, ?_, ?_⟩
  · intro v hv hfin
    show (match alookup d "finance" with
      | some (.dict f) => getD d "relatedTickers" (getD f "relatedTickers" (.list []))
      | some _ => .list []
      | none => getD d "relatedTickers" (.list [])) = v
    rcases hfin with hfin | ⟨f, hfin⟩ <;> simp [hfin, getD, hv]
  · intro f v hv hfin hfv
    show (match alookup d "finance" with
      | some (.dict f) => getD d "relatedTickers" (getD f "relatedTickers" (.list []))
      | some _ => .list []
      | none => getD d "relatedTickers" (.list [])) = v
    simp [hfin, getD, hv, hfv]
  · intro f hv hfin hfv
    show (match alookup d "finance" with
      | some (.dict f) => getD d "relatedTickers" (getD f "relatedTickers" (.list []))
      | some _ => .list []
      | none => getD d "relatedTickers" (.list [])) = .list []
    simp [hfin, getD, hv, hfv]
  · intro hv hfin
    show (match alookup d "finance" with
      | some (.dict f) => getD d "relatedTickers" (getD f "relatedTickers" (.list []))
      | some _ => .list []
      | none => getD d "relatedTickers" (.list [])) = .list []
    simp [hfin, getD, hv]
  · intro w hfin hw
    show (match alookup d "finance" with
      | some (.dict f) => getD d "relatedTickers" (getD f "relatedTickers" (.list []))
      | some _ => .list []
      | none => getD d "relatedTickers" (.list [])) = .list []
    cases w with
    | dict f => exact absurd rfl (hw f)
    | null => simp [hfin]
    | str s0 => simp [hfin]
    | num q => simp [hfin]
    | list xs => simp [hfin]

/-- Witness for the amended C6 on concrete records covering the direct
field, the `finance` fallback, and the non-record-`finance` override. -/
theorem c6_witness :
    (mkArticle [("relatedTickers", PyVal.list [.str "A"])]).relatedTickers = .list [.str "A"] ∧
    (mkArticle [("finance", PyVal.dict [("relatedTickers", PyVal.list [.str "B"])])]
      ).relatedTickers = .list [.str "B"] ∧
    (mkArticle ([] : List (String × PyVal))).relatedTickers = .list [] ∧
    (mkArticle [("relatedTickers", PyVal.list [.str "A"]), ("finance", PyVal.num 7)]
      ).relatedTickers = .list [] := by
  refine ⟨?_, ?_, ?_, ?_⟩
  · exact (c6_related_tickers_amended [("relatedTickers", PyVal.list [.str "A"])]).1
      (.list [.str "A"]) rfl (Or.inl rfl)
  · exact (c6_related_tickers_amended
      [("finance", PyVal.dict [("relatedTickers", PyVal.list [.str "B"])])]).2.1
      [("relatedTickers", PyVal.list [.str "B"])] (.list [.str "B"]) rfl rfl rfl
  · exact (c6_related_tickers_amended []).2.2.2.1 rfl rfl
  · exact (c6_related_tickers_amended
      [("relatedTickers", PyVal.list [.str "A"]), ("finance", PyVal.num 7)]).2.2.2.2
      (PyVal.num 7) rfl (fun f h => by injection h)

/-- Claim C7: an article record that unwraps to a record lacking every
optional field normalizes to an `Article` whose string fields are all the
empty string and whose `relatedTickers` is the empty sequence — no field of
the result is missing (the `Article` structure is total by construction). -/
theorem c7_all_defaults (a : PyVal) (d : List (String × PyVal))
    (hu : unwrapContent a = .dict d)
    (h1 : alookup d "title" = none) (h2 : alookup d "provider" = none)
    (h3 : alookup d "publisher" = none) (h4 : alookup d "canonicalUrl" = none)
    (h5 : alookup d "link" = none) (h6 : alookup d "url" = none)
    (h7 : alookup d "pubDate" = none) (h8 : alookup d "providerPublishTime" = none)
    (h9 : alookup d "thumbnail" = none) (h10 : alookup d "relatedTickers" = none)
    (h11 : alookup d "finance" = none) :
    normalizeEntry a = some ⟨.str "", .str "", .str "", .str "", .str "", .list []⟩ := by
  unfold normalizeEntry
  rw [hu]
  have harticle : mkArticle d = ⟨.str "", .str "", .str "", .str "", .str "", .list []⟩ := by
    unfold mkArticle
    simp [getD, h1, h2, h3, h4, h5, h6, h7, h8, h9, h10, h11]
  show some (mkArticle d) = _
  rw [harticle]

/-- Witness for C7 at the empty record. -/
theorem c7_witness :
    normalizeEntry (.dict []) = some ⟨.str "", .str "", .str "", .str "", .str "", .list []⟩ :=
  c7_all_defaults (.dict []) [] rfl rfl rfl rfl rfl rfl rfl rfl rfl rfl rfl rfl

/-! ## Claim theorem: price normalization (C8) -/

/-- Helper: rounding to the nearest integer moves a value by at most a
half. -/
theorem roundHalfEven_abs_le (q : ℚ) : |(roundHalfEven q : ℚ) - q| ≤ 1 / 2 := by
  have hq : (⌊q⌋ : ℚ) = q - Int.fract q := by
    unfold Int.fract
    ring
  have hf0 : 0 ≤ Int.fract q := Int.fract_nonneg q
  have hf1 : Int.fract q < 1 := Int.fract_lt_one q
  unfold roundHalfEven
  by_cases hlt : Int.fract q < 1/2
  · rw [if_pos hlt, abs_le]
    constructor <;> [linarith [hq]; linarith [hq]]
  · rw [if_neg hlt]
    by_cases hgt : 1/2 < Int.fract q
    · rw [if_pos hgt]
      push_cast
      rw [abs_le]
      constructor <;> [linarith [hq]; linarith [hq]]
    · rw [if_neg hgt]
      have heq : Int.fract q = 1/2 := le_antisymm (not_lt.mp hgt) (not_lt.mp hlt)
      by_cases hev : Even ⌊q⌋
      · rw [if_pos hev, abs_le]
        constructor <;> [linarith [hq, heq]; linarith [hq, heq]]
      · rw [if_neg hev]
        push_cast
        rw [abs_le]
        constructor <;> [linarith [hq, heq]; linarith [hq, heq]]

/-- Helper: `round3` produces an integer multiple of one thousandth and
moves a value by at most half a thousandth. -/
theorem round3_quality (q : ℚ) :
    ∃ k : ℤ, round3 q = (k : ℚ) / 1000 ∧ |round3 q - q| ≤ 1 / 2000 := by
  refine ⟨roundHalfEven (q * 1000), rfl, ?_⟩
  have h := roundHalfEven_abs_le (q * 1000)
  unfold round3
  have he : (roundHalfEven (q * 1000) : ℚ) / 1000 - q =
      ((roundHalfEven (q * 1000) : ℚ) - q * 1000) / 1000 := by ring
  rw [he, abs_div]
  have h1000 : |(1000 : ℚ)| = 1000 := by norm_num
  rw [h1000]
  rw [div_le_iff (by norm_num : (0:ℚ) < 1000)]
  calc |(roundHalfEven (q * 1000) : ℚ) - q * 1000| ≤ 1 / 2 := h
    _ = 1 / 2000 * 1000 := by norm_num

/-- Claim C8: on every non-empty raw price series the normalizer emits
exactly one `PriceBar` per row, in the series' native order, with the date
rendered as `YYYY-MM-DD` (ten characters, dashes at positions 4 and 7),
`open/high/low/close` rounded to 3 decimal places (an integer multiple of
`1/1000` within `1/2000` of the raw value) and `volume` truncated to an
integer; no row is filtered out for anomalous values. -/
theorem c8_price_bars (rows : List PriceRow) (hne : rows ≠ []) :
    (normalizePrices rows).length = rows.length ∧
    (∀ i, (normalizePrices rows).get? i = (rows.get? i).map mkBar) ∧
    (∀ r : PriceRow, mkBar r =
      ⟨fmtDate r.date, round3 r.Open, round3 r.High, round3 r.Low, round3 r.Close,
        truncInt r.Volume⟩) ∧
    (∀ q : ℚ, ∃ k : ℤ, round3 q = (k : ℚ) / 1000 ∧ |round3 q - q| ≤ 1 / 2000) ∧
    (∀ dt : Date, (fmtDate dt).length = 10 ∧
      (fmtDate dt).data.get? 4 = some (Char.ofNat 45) ∧
      (fmtDate dt).data.get? 7 = some (Char.ofNat 45)) := by
  refine ⟨List.length_map _ _, ?_, fun r => rfl, round3_quality, fun dt => ⟨rfl, rfl, rfl⟩⟩
  intro i
  unfold normalizePrices
  exact List.get?_map mkBar rows i

/-- Witness for C8 on a one-row series. -/
theorem c8_witness :
    (normalizePrices [⟨⟨2025, 3, 7⟩, 1, 2, 3, 4, 5⟩]).length = 1 ∧
    (normalizePrices [⟨⟨2025, 3, 7⟩, 1, 2, 3, 4, 5⟩]).get? 0 =
      some (mkBar ⟨⟨2025, 3, 7⟩, 1, 2, 3, 4, 5⟩) ∧
    (fmtDate ⟨2025, 3, 7⟩).length = 10 := by
  have h := c8_price_bars [⟨⟨2025, 3, 7⟩, 1, 2, 3, 4, 5⟩] (by simp)
  exact ⟨h.1, (h.2.1 0).trans rfl, (h.2.2.2.2 ⟨2025, 3, 7⟩).1⟩

/-! ## Claim theorems: price pipeline orchestration (C1, C2, C9, C10, C3) -/

/-- Claim C2: on a dedup cache hit whose source artifact exists, the file
written for the current code is the source symbol's artifact with only the
`code` field replaced (`data["code"] = code`, line 45 of
`fetch_prices.py`); every other field — `ticker`, `days`, `prices`,
`fetchedAt`, and any other key — is carried over unchanged, and the
iteration succeeds without re-invoking the provider (the fetch log does not
grow). -/
theorem c2_clone_frame (fetch : String → Except PyErr (List PriceRow)) (now : String)
    (s : PState) (code ticker src : String) (d : List (String × PyVal))
    (hseen : alookup s.seen ticker = some src)
    (hfile : alookup s.files src = some (.dict d)) :
    ∃ s', priceStep fetch now s (code, ticker) = .ok s' ∧
      alookup s'.files code = some (.dict (upsert "code" (.str code) d)) ∧
      alookup (upsert "code" (.str code) d) "code" = some (.str code) ∧
      (∀ k, k ≠ "code" → alookup (upsert "code" (.str code) d) k = alookup d k) ∧
      s'.fetchLog = s.fetchLog := by
  have hstep : priceStep fetch now s (code, ticker) = .ok { s with
      files := upsert code (.dict (upsert "code" (.str code) d)) s.files,
      index := upsert code (idxEntryVal ticker
        (getD (upsert "code" (.str code) d) "days" (.num 0))) s.index,
      success := s.success + 1 } := by
    unfold priceStep
    simp only [hseen, hfile]
  refine ⟨_, hstep, ?_, alookup_upsert_self _ _ _, ?_, rfl⟩
  · exact alookup_upsert_self _ _ _
  · intro k hk
    exact alookup_upsert_ne _ _ hk

/-- Witness for C2 at a concrete cache-hit state. -/
theorem c2_witness :
    ∃ s' : PState, priceStep (fun _ => .error .providerError) "now"
        ⟨[("T", "0001")], [("0001", PyVal.dict [("ticker", PyVal.str "T"),
          ("code", PyVal.str "0001")])], [], 1, 0, ["T"]⟩ ("0002", "T") = .ok s' ∧
      alookup s'.files "0002" = some (PyVal.dict (upsert "code" (PyVal.str "0002")
        [("ticker", PyVal.str "T"), ("code", PyVal.str "0001")])) ∧
      alookup (upsert "code" (PyVal.str "0002")
        [("ticker", PyVal.str "T"), ("code", PyVal.str "0001")]) "code" =
          some (PyVal.str "0002") ∧
      (∀ k, k ≠ "code" → alookup (upsert "code" (PyVal.str "0002")
        [("ticker", PyVal.str "T"), ("code", PyVal.str "0001")]) k =
        alookup [("ticker", PyVal.str "T"), ("code", PyVal.str "0001")] k) ∧
      s'.fetchLog = ["T"] := by
  obtain ⟨s', h1, h2, h3, h4, h5⟩ := c2_clone_frame (fun _ => .error .providerError) "now"
    ⟨[("T", "0001")], [("0001", .dict [("ticker", .str "T"), ("code", .str "0001")])],
      [], 1, 0, ["T"]⟩ "0002" "T" "0001"
    [("ticker", .str "T"), ("code", .str "0001")] rfl rfl
  exact ⟨s', h1, h2, h3, h4, h5.trans rfl⟩

/-- Claim C1: in a price run over pairwise-sorted symbol codes in which two
distinct codes map to the same ticker and that ticker's fetch succeeds with
a non-empty series, both codes end up with artifacts having identical
`prices` and `ticker` fields and distinct `code` fields, and the provider's
price fetch is invoked exactly once for that ticker in the whole run. -/
theorem c1_shared_ticker (fs0 : List (String × PyVal)) (pairs : List (String × String))
    (fetch : String → Except PyErr (List PriceRow)) (now : String) (s : PState)
    (c1 c2 t : String) (r : PriceRow) (rs : List PriceRow)
    (hsorted : pairs.Pairwise (fun a b => a.1 < b.1))
    (h1 : (c1, t) ∈ pairs) (h2 : (c2, t) ∈ pairs) (hne : c1 ≠ c2)
    (hf : fetch t = .ok (r :: rs))
    (hrun : runPricesFrom fs0 pairs fetch now = .ok s) :
    ∃ d1 d2 : List (String × PyVal),
      alookup s.files c1 = some (.dict d1) ∧ alookup s.files c2 = some (.dict d2) ∧
      alookup d1 "prices" = alookup d2 "prices" ∧
      alookup d1 "ticker" = some (.str t) ∧ alookup d2 "ticker" = some (.str t) ∧
      alookup d1 "code" = some (.str c1) ∧ alookup d2 "code" = some (.str c2) ∧
      alookup d1 "code" ≠ alookup d2 "code" ∧
      countS s.fetchLog t = 1 := by
  have hnd : (codesOf pairs).Nodup := by
    have hp : (codesOf pairs).Pairwise (· < ·) := by
      unfold codesOf
      exact List.pairwise_map.mpr hsorted
    exact hp.imp ne_of_lt
  have inv := runPricesFrom_invA hnd hrun
  have hc1 := inv.canon c1 t r rs h1 hf
  have hc2 := inv.canon c2 t r rs h2 hf
  refine ⟨_, _, hc1, hc2, rfl, rfl, rfl, rfl, rfl, ?_, ?_⟩
  · intro h
    injection h with h
    injection h with h
    exact hne h
  · have ht : t ∈ tickersOf pairs := by
      unfold tickersOf
      exact List.mem_map_of_mem Prod.snd h1
    rw [inv.log_count t, if_pos ht]

/-- Witness for C1: a concrete clean run over `{"0001": "T", "0002": "T"}`
with a one-row history. -/
theorem c1_witness :
    ∃ d1 d2 : List (String × PyVal), ∃ s : PState,
      runPricesFrom [] [("0001", "T"), ("0002", "T")]
          (fun _ => .ok [⟨⟨2025, 3, 7⟩, 1, 2, 3, 4, 5⟩]) "now" = .ok s ∧
      alookup s.files "0001" = some (.dict d1) ∧
      alookup s.files "0002" = some (.dict d2) ∧
      alookup d1 "prices" = alookup d2 "prices" ∧
      alookup d1 "code" = some (.str "0001") ∧
      alookup d2 "code" = some (.str "0002") ∧
      countS s.fetchLog "T" = 1 := by
  obtain ⟨d1, d2, ha1, ha2, hp, ht1, ht2, hcode1, hcode2, hnecode, hcount⟩ :=
    c1_shared_ticker [] [("0001", "T"), ("0002", "T")]
      (fun _ => .ok [⟨⟨2025, 3, 7⟩, 1, 2, 3, 4, 5⟩]) "now" _ "0001" "0002" "T"
      ⟨⟨2025, 3, 7⟩, 1, 2, 3, 4, 5⟩ []
      (by simp [List.pairwise_cons]; decide)
      (by simp) (by simp) (by simp) rfl rfl
  exact ⟨d1, d2, _, rfl, ha1, ha2, hp, hcode1, hcode2, hcount⟩

/-- Claim C9: a symbol whose provider call succeeds but returns no price
rows or no news articles gets no artifact, is absent from the index, and
counts as neither success nor error.  Step level: such an iteration leaves
files, index and both counters untouched (the price loop only registers the
ticker and logs the attempt).  Run level: at the end of the run the symbol
has no index entry and its file is exactly what the directory held before
the run (nothing, for the news pipeline, whose writes are the only file
contents modelled). -/
theorem c9_empty_results :
    (∀ (fetch : String → Except PyErr (List PriceRow)) (now : String) (s : PState)
      (c t : String), alookup s.seen t = none → fetch t = .ok [] →
      priceStep fetch now s (c, t) =
        .ok { s with seen := (t, c) :: s.seen, fetchLog := s.fetchLog ++ [t] }) ∧
    (∀ (fetchN : String → Except PyErr PyVal) (now : String) (s : NState) (c t : String)
      (raw : PyVal), fetchN t = .ok raw → normalizeNews raw = .ok [] →
      newsStep fetchN now s (c, t) = s) ∧
    (∀ (fs0 : List (String × PyVal)) (pre post : List (String × String)) (c t : String)
      (fetch : String → Except PyErr (List PriceRow)) (now : String) (s : PState),
      (codesOf (pre ++ (c, t) :: post)).Nodup → t ∉ tickersOf pre → fetch t = .ok [] →
      runPricesFrom fs0 (pre ++ (c, t) :: post) fetch now = .ok s →
      alookup s.files c = alookup fs0 c ∧ alookup s.index c = none) ∧
    (∀ (pre post : List (String × String)) (c t : String)
      (fetchN : String → Except PyErr PyVal) (now : String) (raw : PyVal),
      (codesOf (pre ++ (c, t) :: post)).Nodup → fetchN t = .ok raw →
      normalizeNews raw = .ok [] →
      alookup (runNews (pre ++ (c, t) :: post) fetchN now).files c = none ∧
      alookup (runNews (pre ++ (c, t) :: post) fetchN now).index c = none) := by
  have hsplit : ∀ (pre post : List (String × String)) (c t : String),
      (codesOf (pre ++ (c, t) :: post)).Nodup →
      c ∉ codesOf pre ∧ c ∉ codesOf post ∧ (codesOf pre).Nodup := by
    intro pre post c t hnd
    rw [codesOf_append] at hnd
    have hcons : codesOf ((c, t) :: post) = c :: codesOf post := rfl
    rw [hcons] at hnd
    obtain ⟨hnd1, hnd2, hdisj⟩ := List.nodup_append.mp hnd
    exact ⟨fun hm => hdisj hm (by simp), (List.nodup_cons.mp hnd2).1, hnd1⟩
  refine ⟨?_, ?_, ?_, ?_⟩
  · intro fetch now s c t hseen hf
    unfold priceStep
    simp only [hseen, hf]
  · intro fetchN now s c t raw hfn hn
    unfold newsStep
    simp only [hfn, hn]
  · intro fs0 pre post c t fetch now s hnd hfirst hf hrun
    obtain ⟨hcpre, hcpost, hndpre⟩ := hsplit pre post c t hnd
    unfold runPricesFrom at hrun
    obtain ⟨mid, hpre, hrest⟩ := (goPrice_append_ok _ s pre ((c, t) :: post)).mp hrun
    obtain ⟨mid2, hstep, hpost⟩ := goPrice_cons_ok hrest
    have invmid : InvA fetch now fs0 pre mid := by
      have := goPrice_invA (InvA_init fetch now fs0) (by simpa using hndpre) hpre
      simpa using this
    have hseen_none : alookup mid.seen t = none :=
      Option.not_isSome_iff_eq_none.mp (fun hs => hfirst ((invmid.seen_dom t).mp hs))
    have hstep_eq : priceStep fetch now mid (c, t) =
        .ok { mid with seen := (t, c) :: mid.seen, fetchLog := mid.fetchLog ++ [t] } := by
      unfold priceStep
      simp only [hseen_none, hf]
    rw [hstep_eq] at hstep
    injection hstep with hstep
    subst hstep
    obtain ⟨hfiles, hindex⟩ := invmid.fresh c hcpre
    obtain ⟨hffin, hifin⟩ := goPrice_preserves_fresh hpost c hcpost
    constructor
    · rw [hffin]
      exact hfiles
    · rw [hifin]
      exact hindex
  · intro pre post c t fetchN now raw hnd hfn hn
    obtain ⟨hcpre, hcpost, _⟩ := hsplit pre post c t hnd
    have hstepid : newsStep fetchN now (goNews fetchN now ⟨[], [], 0, 0⟩ pre) (c, t) =
        goNews fetchN now ⟨[], [], 0, 0⟩ pre := by
      unfold newsStep
      simp only [hfn, hn]
    have hrw : runNews (pre ++ (c, t) :: post) fetchN now =
        goNews fetchN now (goNews fetchN now ⟨[], [], 0, 0⟩ pre) post := by
      unfold runNews
      rw [goNews_append]
      show goNews fetchN now (newsStep fetchN now (goNews fetchN now ⟨[], [], 0, 0⟩ pre) (c, t))
        post = _
      rw [hstepid]
    rw [hrw]
    obtain ⟨hf1, hi1⟩ := goNews_preserves_fresh fetchN now post
      (goNews fetchN now ⟨[], [], 0, 0⟩ pre) c hcpost
    obtain ⟨hf2, hi2⟩ := goNews_preserves_fresh fetchN now pre ⟨[], [], 0, 0⟩ c hcpre
    constructor
    · rw [hf1, hf2]
      rfl
    · rw [hi1, hi2]
      rfl

/-- Witness for C9: concrete empty-result runs of both pipelines. -/
theorem c9_witness :
    priceStep (fun _ => .ok []) "now" ⟨[], [], [], 0, 0, []⟩ ("0001", "T") =
      .ok ⟨[("T", "0001")], [], [], 0, 0, ["T"]⟩ ∧
    newsStep (fun _ => .ok (.list [])) "now" ⟨[], [], 0, 0⟩ ("0001", "T") = ⟨[], [], 0, 0⟩ ∧
    (∃ s : PState, runPricesFrom [] [("0001", "T")] (fun _ => .ok []) "now" = .ok s ∧
      alookup s.files "0001" = none ∧ alookup s.index "0001" = none) ∧
    alookup (runNews [("0001", "T")] (fun _ => .ok (.list [])) "now").files "0001" = none ∧
    alookup (runNews [("0001", "T")] (fun _ => .ok (.list [])) "now").index "0001" = none := by
  have h := c9_empty_results
  refine ⟨?_, ?_, ?_, ?_⟩
  · exact (h.1 (fun _ => .ok []) "now" ⟨[], [], [], 0, 0, []⟩ "0001" "T" rfl rfl).trans rfl
  · exact h.2.1 (fun _ => .ok (.list [])) "now" ⟨[], [], 0, 0⟩ "0001" "T" (.list []) rfl rfl
  · obtain ⟨hfl, hidx⟩ := h.2.2.1 [] [] [] "0001" "T" (fun _ => .ok []) "now" _
      (by simp [codesOf]) (by simp [tickersOf]) rfl rfl
    exact ⟨_, rfl, hfl.trans rfl, hidx⟩
  · exact h.2.2.2 [] [] "0001" "T" (fun _ => .ok (.list [])) "now" (.list [])
      (by simp [codesOf]) rfl rfl

/-- Claim C10, counterexample: "every later symbol code sharing the ticker
finds no source artifact and is skipped silently" fails when a stale
artifact for the source code predates the run.  Here the fetch for `T`
raises, so `0001` writes nothing in this run, yet `0001.json` already
exists on disk (`src_path.exists()` at line 41 of `fetch_prices.py` is
true): `0002` clones the stale file, an artifact *is* written for it, and
the success count changes from 0 to 1. -/
theorem c10_counterexample :
    runPricesFrom [("0001", PyVal.dict [("days", PyVal.num 0)])] [("0001", "T"), ("0002", "T")]
      (fun _ => .error .providerError) "now" =
    .ok ⟨[("T", "0001")],
      [("0001", PyVal.dict [("days", PyVal.num 0)]),
       ("0002", PyVal.dict [("days", PyVal.num 0), ("code", PyVal.str "0002")])],
      [("0002", idxEntryVal "T" (PyVal.num 0))], 1, 1, ["T"]⟩ := rfl

/-- Claim C10 (amended): a ticker is registered in the dedup cache before
its fetch is attempted, so in every completed price run the provider's
price fetch is invoked at most once per ticker — even when that only
attempt raises or returns an empty series.  In a run started on an *empty*
output directory, every later symbol code sharing such a failed-or-empty
ticker finds no source artifact and is skipped silently: it gets no file
and no index entry, and removing that pair from the configuration leaves
the final run state — counters included — unchanged.  (With a stale
artifact on disk the skip clause fails: see the counterexample, where the
stale file is cloned and counted as a success.) -/
theorem c10_register_before_fetch_amended :
    (∀ (fs0 : List (String × PyVal)) (pairs : List (String × String))
      (fetch : String → Except PyErr (List PriceRow)) (now : String) (s : PState) (t : String),
      (codesOf pairs).Nodup → runPricesFrom fs0 pairs fetch now = .ok s →
      countS s.fetchLog t ≤ 1) ∧
    (∀ (pre post : List (String × String)) (c t : String)
      (fetch : String → Except PyErr (List PriceRow)) (now : String),
      (codesOf (pre ++ (c, t) :: post)).Nodup → t ∈ tickersOf pre → fetchBad fetch t →
      ∃ s : PState, runPrices (pre ++ (c, t) :: post) fetch now = .ok s ∧
        runPrices (pre ++ post) fetch now = .ok s ∧
        alookup s.files c = none ∧ alookup s.index c = none ∧
        countS s.fetchLog t = 1) := by
  constructor
  · intro fs0 pairs fetch now s t hnd hrun
    have inv := runPricesFrom_invA hnd hrun
    rw [inv.log_count t]
    by_cases hm : t ∈ tickersOf pairs
    · rw [if_pos hm]
    · rw [if_neg hm]
      omega
  · intro pre post c t fetch now hnd htpre hbad
    have hndflat : (codesOf pre ++ c :: codesOf post).Nodup := by
      rw [codesOf_append] at hnd
      have hcons : codesOf ((c, t) :: post) = c :: codesOf post := rfl
      rw [hcons] at hnd
      exact hnd
    obtain ⟨hnd1, hnd2, hdisj⟩ := List.nodup_append.mp hndflat
    have hcpre : c ∉ codesOf pre := fun hm => hdisj hm (by simp)
    have hcpost : c ∉ codesOf post := (List.nodup_cons.mp hnd2).1
    have hndpp : (codesOf (pre ++ post)).Nodup := by
      rw [codesOf_append]
      rw [List.nodup_append]
      refine ⟨hnd1, (List.nodup_cons.mp hnd2).2, ?_⟩
      intro a ha hb
      exact hdisj ha (List.mem_cons_of_mem _ hb)
    obtain ⟨mid, hpre, invBmid0, _⟩ := goPrice_clean (InvB_init fetch now)
      (by simpa using hnd1)
    have invBmid : InvB fetch now pre mid := by simpa using invBmid0
    have hsome : (alookup mid.seen t).isSome := (invBmid.base.seen_dom t).mpr htpre
    obtain ⟨c0, hseen⟩ := Option.isSome_iff_exists.mp hsome
    have hsm : (c0, t) ∈ pre := invBmid.base.seen_mem t c0 hseen
    have hfnone : alookup mid.files c0 = none := (invBmid.bad_none c0 t hsm hbad).1
    have hstepid : priceStep fetch now mid (c, t) = .ok mid := by
      unfold priceStep
      simp only [hseen, hfnone]
    obtain ⟨s, hpost, invBfin0, _⟩ := goPrice_clean invBmid (by simpa using hndpp)
    have invBfin : InvB fetch now (pre ++ post) s := by simpa using invBfin0
    have hconspost : goPrice fetch now mid ((c, t) :: post) = .ok s := by
      unfold goPrice
      rw [hstepid]
      exact hpost
    refine ⟨s, ?_, ?_, ?_, ?_, ?_⟩
    · exact (goPrice_append_ok _ s pre ((c, t) :: post)).mpr ⟨mid, hpre, hconspost⟩
    · exact (goPrice_append_ok _ s pre post).mpr ⟨mid, hpre, hpost⟩
    · have := (invBfin.base.fresh c (by
        rw [codesOf_append]
        intro hm
        rcases List.mem_append.mp hm with hm | hm
        · exact hcpre hm
        · exact hcpost hm)).1
      rw [this]
      rfl
    · exact (invBfin.base.fresh c (by
        rw [codesOf_append]
        intro hm
        rcases List.mem_append.mp hm with hm | hm
        · exact hcpre hm
        · exact hcpost hm)).2
    · rw [invBfin.base.log_count t, if_pos]
      rw [tickersOf_append]
      exact List.mem_append_left _ htpre

/-- Witness for the amended C10: a clean run with a failing fetch, where the
second code sharing the ticker is skipped without any trace. -/
theorem c10_witness :
    ∃ s : PState, runPrices [("0001", "T"), ("0002", "T")]
        (fun _ => .error .providerError) "now" = .ok s ∧
      runPrices [("0001", "T")] (fun _ => .error .providerError) "now" = .ok s ∧
      alookup s.files "0002" = none ∧ alookup s.index "0002" = none ∧
      countS s.fetchLog "T" = 1 := by
  have h := (c10_register_before_fetch_amended).2 [("0001", "T")] [] "0002" "T"
    (fun _ => .error .providerError) "now" (by decide) (by simp [tickersOf])
    (Or.inl ⟨.providerError, rfl⟩)
  simpa using h

/-- Claim C3, counterexample: a failure in the dedup-reuse branch is *not*
recorded and *does* propagate out of the run.  The reuse branch (lines
37–52 of `fetch_prices.py`) sits outside the per-symbol `try`: with a
corrupt leftover `0001.json` holding a JSON array and a fetch that raises
for `T`, symbol `0001` is counted as an error, and then symbol `0002`
reads the corrupt file and `data["code"] = code` raises an uncaught
`TypeError` that aborts the whole run. -/
theorem c3_counterexample :
    runPricesFrom [("0001", PyVal.list [])] [("0001", "T"), ("0002", "T")]
      (fun _ => .error .providerError) "now" = .error .typeError := rfl

/-- Claim C3 (amended): every failure raised inside the guarded per-symbol
sections is recorded in the error count and the run continues — the news
run is total with exactly one counted error per symbol whose fetch or
normalization fails, and a price run started on an empty output directory
always completes, with exactly one counted error per first-encountered
ticker whose fetch raises.  Only a failure in the price pipeline's
dedup-reuse branch — which sits outside the `try` and can only fire on a
corrupt preexisting source file — escapes this accounting and aborts the
run (see the counterexample). -/
theorem c3_error_recording_amended :
    (∀ (fetchN : String → Except PyErr PyVal) (now : String) (pairs : List (String × String)),
      (runNews pairs fetchN now).errors = pairs.countP (fun p => newsFails fetchN p.2)) ∧
    (∀ (fetch : String → Except PyErr (List PriceRow)) (now : String)
      (pairs : List (String × String)), (codesOf pairs).Nodup →
      ∃ s : PState, runPrices pairs fetch now = .ok s ∧
        s.errors = expErrPrice fetch pairs []) := by
  constructor
  · intro fetchN now pairs
    have h := goNews_errors fetchN now pairs ⟨[], [], 0, 0⟩
    simpa using h
  · intro fetch now pairs hnd
    obtain ⟨s, hrun, _, herr⟩ := runPrices_clean hnd
    exact ⟨s, hrun, herr⟩

/-- Witness for the amended C3: concrete runs of both pipelines with one
failing symbol each. -/
theorem c3_witness :
    (runNews [("0001", "T")] (fun _ => .error .providerError) "now").errors = 1 ∧
    (∃ s : PState, runPrices [("0001", "T"), ("0002", "U")]
        (fun t => if t = "T" then .error .providerError else .ok []) "now" = .ok s ∧
      s.errors = 1) := by
  have h := c3_error_recording_amended
  constructor
  · exact (h.1 (fun _ => .error .providerError) "now" [("0001", "T")]).trans rfl
  · obtain ⟨s, hrun, herr⟩ := h.2
      (fun t => if t = "T" then .error .providerError else .ok []) "now"
      [("0001", "T"), ("0002", "U")] (by decide)
    exact ⟨s, hrun, herr.trans rfl⟩
